import Mathlib

/-!
Verification development for the CSG term / chain core (`src/csgterm.cc`).

The embedding models:
  * `Vec3`, `Box`, `Transform` — the consumed vector/box/affine-transform
    interface (`linalg.h` / Eigen).  Coordinates are modelled by `Int`
    (the C++ uses `double`; none of the verified properties depend on
    rounding, only on ordered-field arithmetic).
  * `PolySet` — the external solid interface: an axis-aligned bounding box
    in its own coordinate space, plus an abstract point-membership
    predicate `mem` for the placed solid (the spec's sample-point
    evaluation is defined "over primitive membership", treating the solid
    as opaque geometry).
  * `CSGTerm` — a tree node.  A null `shared_ptr<CSGTerm>` is modelled by
    the explicit constructor `CSGTerm.null`.  Every node carries its
    cached bounding box `bb`, set at construction and never recomputed
    (normalization replaces children but keeps the node's stale box,
    exactly as the C++ in-place mutation does).
  * `NR α` — the result of running C++ code that may dereference a null
    pointer (`crash`) or fail to terminate within the given fuel
    (`nofuel`).  `normalize` contains unbounded loops, so it is embedded
    with an explicit fuel parameter.
-/

/-- 3-component vector with `Int` coordinates. -/
structure Vec3 where
  x : Int
  y : Int
  z : Int
deriving DecidableEq, Repr

/-- Component-wise minimum (`cwise().min`). -/
def cwMin (a b : Vec3) : Vec3 := ⟨min a.x b.x, min a.y b.y, min a.z b.z⟩

/-- Component-wise maximum (`cwise().max`). -/
def cwMax (a b : Vec3) : Vec3 := ⟨max a.x b.x, max a.y b.y, max a.z b.z⟩

/-- Axis-aligned box given by two corner vectors (Eigen `AlignedBox3d`
with explicit corners; may be inverted, i.e. "null"). -/
structure Box where
  lo : Vec3
  hi : Vec3
deriving DecidableEq, Repr

/-- Eigen `AlignedBox::isNull`: some component of `min` exceeds `max`. -/
def Box.isNull (b : Box) : Bool :=
  decide (b.hi.x < b.lo.x) || decide (b.hi.y < b.lo.y) || decide (b.hi.z < b.lo.z)

/-- Point membership in a box (all components between the corners). -/
def inBox (b : Box) (p : Vec3) : Bool :=
  decide (b.lo.x ≤ p.x) && decide (p.x ≤ b.hi.x) &&
  decide (b.lo.y ≤ p.y) && decide (p.y ≤ b.hi.y) &&
  decide (b.lo.z ≤ p.z) && decide (p.z ≤ b.hi.z)

/-- The box obtained by `extend`ing a default-constructed (null) Eigen box
by the two points `p` then `q`: `extend` of the null box gives `[p,p]`,
and the second `extend` takes component-wise min/max. -/
def box2 (p q : Vec3) : Box := ⟨cwMin p q, cwMax p q⟩

/-- Affine transform (`Transform3d`): a 3×3 linear part plus translation. -/
structure Transform where
  a11 : Int
  a12 : Int
  a13 : Int
  a21 : Int
  a22 : Int
  a23 : Int
  a31 : Int
  a32 : Int
  a33 : Int
  tx : Int
  ty : Int
  tz : Int
deriving DecidableEq, Repr

/-- Apply the affine transform to a point (`m * v`). -/
def Transform.apply (m : Transform) (v : Vec3) : Vec3 :=
  ⟨m.a11 * v.x + m.a12 * v.y + m.a13 * v.z + m.tx,
   m.a21 * v.x + m.a22 * v.y + m.a23 * v.z + m.ty,
   m.a31 * v.x + m.a32 * v.y + m.a33 * v.z + m.tz⟩

/-- `Transform3d::Identity()`. -/
def idT : Transform := ⟨1, 0, 0, 0, 1, 0, 0, 0, 1, 0, 0, 0⟩

/-- RGBA color (`double color[4]`); carried around, never interpreted. -/
structure Color where
  r : Int
  g : Int
  b : Int
  a : Int
deriving DecidableEq, Repr

/-- The external solid interface: its own (untransformed) bounding box,
and the abstract point-membership predicate of the placed solid used by
the spec's sample-point evaluation. -/
structure PolySet where
  bbox : Box
  mem : Vec3 → Bool

/-- `CSGTerm::type_e`. -/
inductive type_e : Type where
  | TYPE_PRIMITIVE
  | TYPE_UNION
  | TYPE_INTERSECTION
  | TYPE_DIFFERENCE
deriving DecidableEq, Repr

/-- The operator kinds that can occur on an internal node.  A C++
`CSGTerm` with `type == TYPE_PRIMITIVE` and children can never be
constructed (the operator constructor would dereference the null
`polyset` in `initBoundingBox`), so operator nodes carry this refined
enum; `opType` injects it back into `type_e`. -/
inductive op_e : Type where
  | union
  | inter
  | diff
deriving DecidableEq, Repr

def opType : op_e → type_e
  | .union => .TYPE_UNION
  | .inter => .TYPE_INTERSECTION
  | .diff => .TYPE_DIFFERENCE

/-- A CSG term.  `null` models a null `shared_ptr<CSGTerm>`; `prim` a
primitive leaf (polyset, transform, color, label, cached bounding box);
`op` an operator node with its two children and cached bounding box. -/
inductive CSGTerm : Type where
  | null : CSGTerm
  | prim (ps : PolySet) (m : Transform) (color : Color) (label : String) (bb : Box) : CSGTerm
  | op (k : op_e) (left right : CSGTerm) (bb : Box) : CSGTerm

/-- `getBoundingBox()`.  Never called on a null pointer by the embedded
code paths; the value on `null` is an arbitrary placeholder (the C++
would dereference null instead). -/
def CSGTerm.bbox : CSGTerm → Box
  | .null => ⟨⟨0, 0, 0⟩, ⟨0, 0, 0⟩⟩
  | .prim _ _ _ _ bb => bb
  | .op _ _ _ bb => bb

/-- The cached box computed by the primitive branch of
`initBoundingBox`: the solid's own box corners `min`/`max` are pushed
through the transform and the (initially null) box is extended by the
two images. -/
def leafBBox (ps : PolySet) (m : Transform) : Box :=
  box2 (m.apply ps.bbox.lo) (m.apply ps.bbox.hi)

/-- The cached box computed by the operator branch of `initBoundingBox`
(the node's own transform is `Transform3d::Identity()`, set by the
operator constructor). -/
def opBBox (k : op_e) (lb rb : Box) : Box :=
  match k with
  | .union => box2 (idT.apply (cwMin lb.lo rb.lo)) (idT.apply (cwMax lb.hi rb.hi))
  | .inter => box2 (idT.apply (cwMax lb.lo rb.lo)) (idT.apply (cwMin lb.hi rb.hi))
  | .diff => box2 (idT.apply lb.lo) (idT.apply lb.hi)

/-- The primitive-leaf constructor `CSGTerm(polyset, matrix, color, label)`. -/
def mkPrim (ps : PolySet) (m : Transform) (c : Color) (label : String) : CSGTerm :=
  .prim ps m c label (leafBBox ps m)

/-- The operator constructor `CSGTerm(type, left, right)` (which calls
`initBoundingBox`). -/
def mkOp (k : op_e) (l r : CSGTerm) : CSGTerm :=
  .op k l r (opBBox k l.bbox r.bbox)

/-- `CSGTerm::createCSGTerm(type, left, right)`: null-operand identity
rules, then bounding-box pruning for intersection/difference, then the
operator constructor. -/
def createCSGTerm (k : op_e) (l r : CSGTerm) : CSGTerm :=
  match r with
  | .null =>
    match k with
    | .union => l
    | .diff => l
    | .inter => .null
  | _ =>
    match l with
    | .null =>
      match k with
      | .union => r
      | _ => .null
    | _ =>
      let newbox : Box := ⟨cwMax l.bbox.lo r.bbox.lo, cwMin l.bbox.hi r.bbox.hi⟩
      match k with
      | .inter => if newbox.isNull then .null else mkOp .inter l r
      | .diff => if newbox.isNull then l else mkOp .diff l r
      | .union => mkOp .union l r

/-- Boolean set operation at a sample point. -/
def opApply : op_e → Bool → Bool → Bool
  | .union, a, b => a || b
  | .inter, a, b => a && b
  | .diff, a, b => a && !b

/-- Sample-point membership of a CSG tree: recursively via set
union/intersection/difference over primitive membership; an absent
(null) term denotes the empty set. -/
def memT : CSGTerm → Vec3 → Bool
  | .null, _ => false
  | .prim ps _ _ _ _, p => ps.mem p
  | .op k l r _, p => opApply k (memT l p) (memT r p)

/-- Every node's cached bounding box encloses the set of points the
subtree contains (so bounding-box pruning is sound). -/
def Cons : CSGTerm → Prop
  | .null => True
  | .prim ps _ _ _ bb => ∀ p, ps.mem p = true → inBox bb p = true
  | .op k l r bb =>
      Cons l ∧ Cons r ∧ ∀ p, opApply k (memT l p) (memT r p) = true → inBox bb p = true

/-- Every primitive leaf's cached bounding box encloses its transformed
solid (the pruning-soundness hypothesis of the spec). -/
def PrimCons : CSGTerm → Prop
  | .null => True
  | .prim ps _ _ _ bb => ∀ p, ps.mem p = true → inBox bb p = true
  | .op _ l r _ => PrimCons l ∧ PrimCons r

def nonNull : CSGTerm → Bool
  | .null => false
  | _ => true

/-- The tree's cached boxes are the ones construction computes: leaf
boxes come from `leafBBox`, operator boxes from `opBBox` of the
children's boxes, and operator nodes have non-null children (as every
tree built through the constructors does). -/
def WFB : CSGTerm → Bool
  | .null => true
  | .prim ps m _ _ bb => decide (bb = leafBBox ps m)
  | .op k l r bb =>
      nonNull l && nonNull r && WFB l && WFB r && decide (bb = opBBox k l.bbox r.bbox)

/-- Result of running embedded C++ that may dereference a null pointer
(`crash`) or exceed the fuel given to an unbounded loop (`nofuel`). -/
inductive NR (α : Type) : Type where
  | crash : NR α
  | nofuel : NR α
  | ok (a : α) : NR α
deriving DecidableEq, Repr

/-- `CSGTerm::dump()`.  Dereferences its children, so a null child (or a
null term) crashes. -/
def CSGTerm.dump : CSGTerm → NR String
  | .null => .crash
  | .prim _ _ _ label _ => .ok label
  | .op k l r _ =>
    match l.dump with
    | .crash => .crash
    | .nofuel => .nofuel
    | .ok sl =>
      match r.dump with
      | .crash => .crash
      | .nofuel => .nofuel
      | .ok sr =>
        match k with
        | .union => .ok ("(" ++ sl ++ " + " ++ sr ++ ")")
        | .inter => .ok ("(" ++ sl ++ " * " ++ sr ++ ")")
        | .diff => .ok ("(" ++ sl ++ " - " ++ sr ++ ")")

/-- `CSGTerm::normalize_tail(term)`: one rewrite step.  `ok none` means
"no rule applied, `term` untouched, return false"; `ok (some t)` means a
rule fired and replaced `term` by `t` (possibly null after pruning).
Reading `term->right->left` with a null `right`, or `term->left->left`
with a null `left` (part B), dereferences null. -/
def normalize_tail : CSGTerm → NR (Option CSGTerm)
  | .null => .crash
  | .prim _ _ _ _ _ => .ok none
  | .op k l r _ =>
    if k = .union then .ok none
    else
      match r with
      | .null => .crash
      | .prim ps m c lab bb =>
        -- Part A cannot match (rules 1-6 need an operator on the right);
        -- Part B reads `term->left->left`, dereferencing `left`.
        match l with
        | .null => .crash
        | .prim _ _ _ _ _ => .ok none
        | .op lk lx ly _ =>
          if lk = .diff ∧ k = .inter then
            -- 7. (x - y) * z  -> (x * z) - y
            .ok (some (createCSGTerm .diff
              (createCSGTerm .inter lx (.prim ps m c lab bb)) ly))
          else if lk = .union ∧ k = .diff then
            -- 8. (x + y) - z  -> (x - z) + (y - z)
            .ok (some (createCSGTerm .union
              (createCSGTerm .diff lx (.prim ps m c lab bb))
              (createCSGTerm .diff ly (.prim ps m c lab bb))))
          else if lk = .union ∧ k = .inter then
            -- 9. (x + y) * z  -> (x * z) + (y * z)
            .ok (some (createCSGTerm .union
              (createCSGTerm .inter lx (.prim ps m c lab bb))
              (createCSGTerm .inter ly (.prim ps m c lab bb))))
          else .ok none
      | .op rk ry rz _ =>
        -- Part A: `x op (y op z)`; `term->type` is inter or diff here, so
        -- one of rules 1-6 always matches.
        match k, rk with
        | .diff, .union =>
          -- 1.  x - (y + z) -> (x - y) - z
          .ok (some (createCSGTerm .diff (createCSGTerm .diff l ry) rz))
        | .inter, .union =>
          -- 2.  x * (y + z) -> (x * y) + (x * z)
          .ok (some (createCSGTerm .union
            (createCSGTerm .inter l ry) (createCSGTerm .inter l rz)))
        | .diff, .inter =>
          -- 3.  x - (y * z) -> (x - y) + (x - z)
          .ok (some (createCSGTerm .union
            (createCSGTerm .diff l ry) (createCSGTerm .diff l rz)))
        | .inter, .inter =>
          -- 4.  x * (y * z) -> (x * y) * z
          .ok (some (createCSGTerm .inter (createCSGTerm .inter l ry) rz))
        | .diff, .diff =>
          -- 5.  x - (y - z) -> (x - y) + (x * z)
          .ok (some (createCSGTerm .union
            (createCSGTerm .diff l ry) (createCSGTerm .inter l rz)))
        | .inter, .diff =>
          -- 6.  x * (y - z) -> (x * y) - z
          .ok (some (createCSGTerm .diff (createCSGTerm .inter l ry) rz))
        | .union, _ => .ok none  -- unreachable: the if-guard above excluded union

/-- The inner fixed-point loop `while (term && normalize_tail(term)) { }`. -/
def innerLoop : Nat → CSGTerm → NR CSGTerm
  | 0, _ => .nofuel
  | _ + 1, .null => .ok .null
  | fuel + 1, t =>
    match normalize_tail t with
    | .crash => .crash
    | .nofuel => .nofuel
    | .ok none => .ok t
    | .ok (some t') => innerLoop fuel t'

/-- The `while` guard of the outer `do`-loop:
`term->type != TYPE_UNION && (term->right->type != TYPE_PRIMITIVE ||
term->left->type == TYPE_UNION)`, with C++ short-circuit evaluation and
null dereferences made explicit. -/
def whileCond : CSGTerm → NR Bool
  | .null => .crash
  | .prim _ _ _ _ _ => .crash  -- type != UNION, then `right` (null) is dereferenced
  | .op k l r _ =>
    if k = .union then .ok false
    else
      match r with
      | .null => .crash
      | .op _ _ _ _ => .ok true  -- right->type != TYPE_PRIMITIVE short-circuits
      | .prim _ _ _ _ _ =>
        match l with
        | .null => .crash
        | .prim _ _ _ _ _ => .ok false
        | .op lk _ _ _ => .ok (decide (lk = .union))

mutual

/-- The `do { ... } while (cond)` loop of `normalize`: the body runs the
inner fixed-point loop, early-returns on a null or primitive term
(`Sum.inl`), replaces `term->left` by its normalization (keeping the
node's stale cached box, as the in-place mutation does), and repeats
while the guard holds; `Sum.inr` is the term when the loop exits. -/
def outerLoop : Nat → CSGTerm → NR (CSGTerm ⊕ CSGTerm)
  | 0, _ => .nofuel
  | fuel + 1, t =>
    match innerLoop (fuel + 1) t with
    | .crash => .crash
    | .nofuel => .nofuel
    | .ok t1 =>
      match t1 with
      | .null => .ok (.inl .null)
      | .prim ps m c lab bb => .ok (.inl (.prim ps m c lab bb))
      | .op k l r bb =>
        match normalizeF fuel l with
        | .crash => .crash
        | .nofuel => .nofuel
        | .ok l' =>
          match whileCond (.op k l' r bb) with
          | .crash => .crash
          | .nofuel => .nofuel
          | .ok true => outerLoop fuel (.op k l' r bb)
          | .ok false => .ok (.inr (.op k l' r bb))

/-- `CSGTerm::normalize(term)` with explicit fuel.  A null argument is
dereferenced immediately; a primitive is returned as is; otherwise the
outer loop runs, then `term->right` is replaced by its normalization
(stale cached box kept) and the null-child identity collapse is applied. -/
def normalizeF : Nat → CSGTerm → NR CSGTerm
  | _, .null => .crash
  | 0, _ => .nofuel
  | _ + 1, .prim ps m c lab bb => .ok (.prim ps m c lab bb)
  | fuel + 1, .op k l r bb =>
    match outerLoop fuel (.op k l r bb) with
    | .crash => .crash
    | .nofuel => .nofuel
    | .ok (.inl ret) => .ok ret
    | .ok (.inr t2) =>
      match t2 with
      | .null => .crash  -- unreachable: the loop exits only on an operator node
      | .prim _ _ _ _ _ => .crash  -- unreachable likewise
      | .op k2 l2 r2 bb2 =>
        match normalizeF fuel r2 with
        | .crash => .crash
        | .nofuel => .nofuel
        | .ok r2' =>
          match r2' with
          | .null =>
            match k2 with
            | .union => .ok l2
            | .diff => .ok l2
            | .inter => .ok .null
          | _ =>
            match l2 with
            | .null =>
              match k2 with
              | .union => .ok r2'
              | _ => .ok .null
            | _ => .ok (.op k2 l2 r2' bb2)

end

/-- One record of a `CSGChain` (the parallel vectors `polysets`,
`matrices`, `colors`, `types`, `labels`). -/
structure ChainRec where
  ps : PolySet
  m : Transform
  color : Color
  ty : type_e
  label : String

/-- `CSGChain::import(term, type)`: depth-first flattening; a primitive
is appended tagged with the caller-supplied type, an operator recurses
left with the caller's type and right with its own type.  A null term is
dereferenced. -/
def importChain : CSGTerm → type_e → NR (List ChainRec)
  | .null, _ => .crash
  | .prim ps m c lab _, ty => .ok [⟨ps, m, c, ty, lab⟩]
  | .op k l r _, ty =>
    match importChain l ty with
    | .crash => .crash
    | .nofuel => .nofuel
    | .ok rs1 =>
      match importChain r (opType k) with
      | .crash => .crash
      | .nofuel => .nofuel
      | .ok rs2 => .ok (rs1 ++ rs2)

/-- `extend` of a possibly-null running box (`BoundingBox bbox;` starts
null) by a point. -/
def extendO : Option Box → Vec3 → Option Box
  | none, p => some ⟨p, p⟩
  | some b, p => some ⟨cwMin b.lo p, cwMax b.hi p⟩

/-- `CSGChain::getBoundingBox()`: fold over the records, skipping
`TYPE_DIFFERENCE`-tagged ones and solids with a null box, extending the
running box by the transformed corners of each remaining solid's box. -/
def chainBBox (ch : List ChainRec) : Option Box :=
  ch.foldl
    (fun acc rc =>
      if rc.ty ≠ type_e.TYPE_DIFFERENCE then
        if rc.ps.bbox.isNull then acc
        else extendO (extendO acc (rc.m.apply rc.ps.bbox.lo)) (rc.m.apply rc.ps.bbox.hi)
      else acc)
    none

/-! ### Box lemmas -/

def isPrimOrNull : CSGTerm → Bool
  | .null => true
  | .prim _ _ _ _ _ => true
  | .op _ _ _ _ => false

def isUnionNode : CSGTerm → Bool
  | .op .union _ _ _ => true
  | _ => false

/-- Every node reachable from the root without passing through a Union
node either is itself a Union, or has a Primitive (or absent) right
child and a non-Union left child. -/
def NFb : CSGTerm → Bool
  | .null => true
  | .prim _ _ _ _ _ => true
  | .op k l r _ =>
    decide (k = .union) || (isPrimOrNull r && !(isUnionNode l) && NFb l && NFb r)

def isDiffNode : CSGTerm → Bool
  | .op .diff _ _ _ => true
  | _ => false

/-- No tail rule applies at this node and the `while` guard is false:
the node is a Union, or its right child is a Primitive while its left
child is no Union (rules 8/9) and not a Difference under an
Intersection (rule 7). -/
def stableNode : CSGTerm → Bool
  | .op k l r _ =>
      decide (k = .union) ||
      (isPrimOrNull r && !(isUnionNode l) && !(decide (k = .inter) && isDiffNode l))
  | _ => true

/-- Non-null trees all of whose nodes (including those under Unions)
are stable. -/
def NFdeep : CSGTerm → Bool
  | .null => false
  | .prim _ _ _ _ _ => true
  | .op k l r bb => NFdeep l && NFdeep r && stableNode (.op k l r bb)

/-- Fuel sufficient for `normalizeF` to traverse the tree. -/
def fuelNeed : CSGTerm → Nat
  | .null => 1
  | .prim _ _ _ _ _ => 1
  | .op _ l r _ => 1 + max (fuelNeed l + 1) (fuelNeed r)

/-- Modelled on the spec's description of `import`: a Primitive appends
one record tagged with the caller-supplied kind; an operator node
flattens its left child under the caller's kind, then its right child
under the node's own kind. -/
def flattenSpec : CSGTerm → type_e → List ChainRec
  | .null, _ => []
  | .prim ps m c lab _, ty => [⟨ps, m, c, ty, lab⟩]
  | .op k l r _, ty => flattenSpec l ty ++ flattenSpec r (opType k)

/-- Number of primitive leaves. -/
def leafCount : CSGTerm → Nat
  | .null => 0
  | .prim _ _ _ _ _ => 1
  | .op _ l r _ => leafCount l + leafCount r

/-- The term is non-null and every operator node has non-null children. -/
def noNullKids : CSGTerm → Bool
  | .null => false
  | .prim _ _ _ _ _ => true
  | .op _ l r _ => noNullKids l && noNullKids r

/-- Modelled on the spec's description of `getBoundingBox`: aggregate
over exactly the records not tagged Difference, extending a running box
over the transformed box corners of each contributing solid. -/
def specBBox (ch : List ChainRec) : Option Box :=
  (ch.filter (fun rc => rc.ty ≠ type_e.TYPE_DIFFERENCE)).foldl
    (fun acc rc =>
      if rc.ps.bbox.isNull then acc
      else extendO (extendO acc (rc.m.apply rc.ps.bbox.lo)) (rc.m.apply rc.ps.bbox.hi))
    none

/-- Component-wise order on vectors. -/
def vecLE (a b : Vec3) : Prop := a.x ≤ b.x ∧ a.y ≤ b.y ∧ a.z ≤ b.z

def boxW : Box := ⟨⟨0, 0, 0⟩, ⟨2, 2, 2⟩⟩

def psW : PolySet := ⟨boxW, fun p => inBox boxW p⟩

def colW : Color := ⟨1, 1, 1, 1⟩

def leafW (lab : String) : CSGTerm := mkPrim psW idT colW lab

/-- `A * (B + C)` over three overlapping solids. -/
def tC1 : CSGTerm := createCSGTerm .inter (leafW "A")
  (createCSGTerm .union (leafW "B") (leafW "C"))

/-- Its normalization `(A * B) + (A * C)` (rule 2). -/
def resC1 : CSGTerm := createCSGTerm .union
  (createCSGTerm .inter (leafW "A") (leafW "B"))
  (createCSGTerm .inter (leafW "A") (leafW "C"))

/-- `A - (B + C)` over three overlapping solids. -/
def tC2 : CSGTerm := createCSGTerm .diff (leafW "A")
  (createCSGTerm .union (leafW "B") (leafW "C"))

/-- Its normalization `(A - B) - C` (rule 1). -/
def resC2 : CSGTerm := createCSGTerm .diff
  (createCSGTerm .diff (leafW "A") (leafW "B")) (leafW "C")

/-- Run `normalize` once and twice on `t` and dump both results. -/
def idemDumps (fuel : Nat) (t : CSGTerm) : Option (String × String) :=
  match normalizeF fuel t with
  | .ok r1 =>
    match normalizeF fuel r1 with
    | .ok r2 =>
      match r1.dump, r2.dump with
      | .ok s1, .ok s2 => some (s1, s2)
      | _, _ => none
    | _ => none
  | _ => none

/-- `(A * (B - C)) * D`: normalizes to `((A * B) - C) * D`, which still
contains the rule-7 redex `(x - y) * z`, so a second normalization
rewrites it again. -/
def tC6 : CSGTerm := createCSGTerm .inter
  (createCSGTerm .inter (leafW "A") (createCSGTerm .diff (leafW "B") (leafW "C")))
  (leafW "D")

/-- `A - B`: a fixed point of `normalize`. -/
def tC6w : CSGTerm := createCSGTerm .diff (leafW "A") (leafW "B")

/-- `(A - B) * C`: the right child is a Primitive, yet rule 7 fires. -/
def tC3cex : CSGTerm := mkOp .inter (mkOp .diff (leafW "A") (leafW "B")) (leafW "C")

/-- `Union(Primitive(A), Difference(Primitive(B), Primitive(C)))`. -/
def tC7 : CSGTerm := mkOp .union (leafW "A") (mkOp .diff (leafW "B") (leafW "C"))

/-- A chain with only Difference-tagged records. -/
def chW : List ChainRec := [⟨psW, idT, colW, .TYPE_DIFFERENCE, "X"⟩]

def psC9 : PolySet := ⟨⟨⟨0, 0, 0⟩, ⟨1, 1, 1⟩⟩, fun _ => false⟩

/-- The shear `(x, y, z) ↦ (x - y, y, z)`. -/
def mShear : Transform := ⟨1, -1, 0, 0, 1, 0, 0, 0, 1, 0, 0, 0⟩

/-- An axis-aligned scale-and-translate transform. -/
def mAxis : Transform := ⟨2, 0, 0, 0, 3, 0, 0, 0, 1, 5, -4, 0⟩

/-- A solid far away from `boxW`. -/
def leafFar : CSGTerm :=
  mkPrim ⟨⟨⟨10, 10, 10⟩, ⟨12, 12, 12⟩⟩, fun _ => false⟩ idT colW "F"

/-! ### The claims -/

theorem idT_apply (v : Vec3) : idT.apply v = v := by
  cases v; simp [Transform.apply, idT]

theorem inBox_iff (b : Box) (p : Vec3) :
    inBox b p = true ↔
      (b.lo.x ≤ p.x ∧ p.x ≤ b.hi.x ∧ b.lo.y ≤ p.y ∧ p.y ≤ b.hi.y ∧
       b.lo.z ≤ p.z ∧ p.z ≤ b.hi.z) := by
  simp [inBox, Bool.and_eq_true, decide_eq_true_eq]
  tauto

theorem isNull_iff (b : Box) :
    b.isNull = true ↔ (b.hi.x < b.lo.x ∨ b.hi.y < b.lo.y ∨ b.hi.z < b.lo.z) := by
  simp [Box.isNull, Bool.or_eq_true, decide_eq_true_eq]
  tauto

/-- A point in both boxes lies in their overlap, so a null overlap box
means the boxes are disjoint. -/
theorem overlap_null_disjoint {lb rb : Box} {p : Vec3}
    (h : (Box.mk (cwMax lb.lo rb.lo) (cwMin lb.hi rb.hi)).isNull = true)
    (hl : inBox lb p = true) (hr : inBox rb p = true) : False := by
  rw [isNull_iff] at h
  rw [inBox_iff] at hl hr
  simp [cwMax, cwMin] at h
  omega

/-- The box `initBoundingBox` computes for an operator node contains
every point contained in the corresponding set operation on the
children, provided each child's box contains the child's points. -/
theorem opBBox_cons (k : op_e) (lb rb : Box) (p : Vec3) (ml mr : Bool)
    (hl : ml = true → inBox lb p = true)
    (hr : mr = true → inBox rb p = true)
    (hm : opApply k ml mr = true) :
    inBox (opBBox k lb rb) p = true := by
  cases k <;> simp [opApply, Bool.and_eq_true, Bool.or_eq_true] at hm <;>
    simp only [opBBox, box2, idT_apply]
  · -- union
    rcases hm with hm | hm
    · have := hl hm
      rw [inBox_iff] at this ⊢
      simp [cwMin, cwMax]
      omega
    · have := hr hm
      rw [inBox_iff] at this ⊢
      simp [cwMin, cwMax]
      omega
  · -- intersection
    have h1 := hl hm.1
    have h2 := hr hm.2
    rw [inBox_iff] at h1 h2 ⊢
    simp [cwMin, cwMax]
    omega
  · -- difference: box is the left child's box (extended from corners)
    have h1 := hl hm.1
    rw [inBox_iff] at h1 ⊢
    simp [cwMin, cwMax]
    omega

/-- A conservative tree's membership is contained in its cached box. -/
theorem memT_inBox {t : CSGTerm} (h : Cons t) (p : Vec3)
    (hp : memT t p = true) : inBox t.bbox p = true := by
  cases t with
  | null => simp [memT] at hp
  | prim ps m c lab bb => exact h p hp
  | op k l r bb => exact h.2.2 p hp

/-! ### `createCSGTerm` semantics -/

/-- Unfolding `createCSGTerm` when the right operand is null. -/
theorem create_null_right (k : op_e) (l : CSGTerm) :
    createCSGTerm k l .null =
      (match k with | .union => l | .diff => l | .inter => .null) := rfl

/-- Unfolding `createCSGTerm` when the left operand is null and the right
is not. -/
theorem create_null_left (k : op_e) (r : CSGTerm) (hr : r ≠ .null) :
    createCSGTerm k .null r =
      (match k with | .union => r | .inter => .null | .diff => .null) := by
  cases r with
  | null => exact absurd rfl hr
  | prim ps m c lab bb => cases k <;> rfl
  | op rk rl rr bb => cases k <;> rfl

/-- Unfolding `createCSGTerm` on two non-null operands: prune by the
overlap box for intersection/difference, otherwise construct the node. -/
theorem create_nonnull (k : op_e) (l r : CSGTerm) (hl : l ≠ .null) (hr : r ≠ .null) :
    createCSGTerm k l r =
      (if (Box.mk (cwMax l.bbox.lo r.bbox.lo) (cwMin l.bbox.hi r.bbox.hi)).isNull then
        (match k with | .inter => .null | .diff => l | .union => mkOp .union l r)
      else mkOp k l r) := by
  cases l with
  | null => exact absurd rfl hl
  | prim lps lm lc llab lbb =>
    cases r with
    | null => exact absurd rfl hr
    | prim _ _ _ _ _ => cases k <;> simp only [createCSGTerm] <;> split <;> rfl
    | op _ _ _ _ => cases k <;> simp only [createCSGTerm] <;> split <;> rfl
  | op lk ll lr lbb =>
    cases r with
    | null => exact absurd rfl hr
    | prim _ _ _ _ _ => cases k <;> simp only [createCSGTerm] <;> split <;> rfl
    | op _ _ _ _ => cases k <;> simp only [createCSGTerm] <;> split <;> rfl

/-- `createCSGTerm` builds a term whose membership is exactly the set
operation on its operands' memberships, and the result is conservative,
provided both operands are.  Covers the null-identity rules and shows
bounding-box pruning is semantics-preserving. -/
theorem createPres (k : op_e) (l r : CSGTerm) (hcl : Cons l) (hcr : Cons r) :
    Cons (createCSGTerm k l r) ∧
      ∀ p, memT (createCSGTerm k l r) p = opApply k (memT l p) (memT r p) := by
  by_cases hr : r = .null
  · subst hr
    cases k <;> simp [create_null_right, memT, opApply, Cons, hcl]
  · by_cases hl : l = .null
    · subst hl
      rw [create_null_left k r hr]
      cases k <;> simp [memT, opApply, Cons, hcr]
    · rw [create_nonnull k l r hl hr]
      split
      · rename_i hnull
        cases k with
        | union =>
          refine ⟨⟨hcl, hcr, fun p hp => opBBox_cons _ _ _ p _ _
            (memT_inBox hcl p) (memT_inBox hcr p) hp⟩, fun p => rfl⟩
        | inter =>
          refine ⟨trivial, fun p => ?_⟩
          simp only [memT, opApply]
          cases hml : memT l p with
          | false => simp
          | true =>
            cases hmr : memT r p with
            | false => simp
            | true =>
              exact (overlap_null_disjoint hnull
                (memT_inBox hcl p hml) (memT_inBox hcr p hmr)).elim
        | diff =>
          refine ⟨hcl, fun p => ?_⟩
          simp only [opApply]
          cases hml : memT l p with
          | false => simp [hml]
          | true =>
            cases hmr : memT r p with
            | false => simp [hml]
            | true =>
              exact (overlap_null_disjoint hnull
                (memT_inBox hcl p hml) (memT_inBox hcr p hmr)).elim
      · exact ⟨⟨hcl, hcr, fun p hp => opBBox_cons _ _ _ p _ _
          (memT_inBox hcl p) (memT_inBox hcr p) hp⟩, fun p => rfl⟩

/-! ### The nine rewrite rules preserve membership (pointwise Boolean identities) -/

theorem boolRule1 (a b c : Bool) : ((a && !b) && !c) = (a && !(b || c)) := by
  cases a <;> cases b <;> cases c <;> rfl

theorem boolRule2 (a b c : Bool) : ((a && b) || (a && c)) = (a && (b || c)) := by
  cases a <;> cases b <;> cases c <;> rfl

theorem boolRule3 (a b c : Bool) : ((a && !b) || (a && !c)) = (a && !(b && c)) := by
  cases a <;> cases b <;> cases c <;> rfl

theorem boolRule4 (a b c : Bool) : ((a && b) && c) = (a && (b && c)) := by
  cases a <;> cases b <;> cases c <;> rfl

theorem boolRule5 (a b c : Bool) : ((a && !b) || (a && c)) = (a && !(b && !c)) := by
  cases a <;> cases b <;> cases c <;> rfl

theorem boolRule6 (a b c : Bool) : ((a && b) && !c) = (a && (b && !c)) := by
  cases a <;> cases b <;> cases c <;> rfl

theorem boolRule7 (a b c : Bool) : ((a && c) && !b) = ((a && !b) && c) := by
  cases a <;> cases b <;> cases c <;> rfl

theorem boolRule8 (a b c : Bool) : ((a && !c) || (b && !c)) = ((a || b) && !c) := by
  cases a <;> cases b <;> cases c <;> rfl

theorem boolRule9 (a b c : Bool) : ((a && c) || (b && c)) = ((a || b) && c) := by
  cases a <;> cases b <;> cases c <;> rfl

/-- One step of `normalize_tail` that fires a rule preserves conservativity
and pointwise membership. -/
theorem tailPres (t t' : CSGTerm) (h : normalize_tail t = .ok (some t'))
    (hc : Cons t) : Cons t' ∧ ∀ p, memT t' p = memT t p := by
  cases t with
  | null => simp [normalize_tail] at h
  | prim ps m c lab bb => simp [normalize_tail] at h
  | op k l r bb =>
    obtain ⟨hcl, hcr, hbox⟩ := hc
    cases r with
    | null => cases k <;> simp [normalize_tail] at h
    | prim rps rm rc rlab rbb =>
      cases l with
      | null => cases k <;> simp [normalize_tail] at h
      | prim _ _ _ _ _ => cases k <;> simp [normalize_tail] at h
      | op lk lx ly lbb =>
        obtain ⟨hclx, hcly, hlbox⟩ := hcl
        cases k with
        | union => simp [normalize_tail] at h
        | inter =>
          cases lk with
          | inter => simp [normalize_tail] at h
          | diff =>
            -- 7. (x - y) * z  -> (x * z) - y
            simp only [normalize_tail, reduceCtorEq, reduceIte, and_self, if_true,
              NR.ok.injEq, Option.some.injEq] at h
            subst h
            obtain ⟨c1, m1⟩ := createPres .inter lx (.prim rps rm rc rlab rbb) hclx hcr
            obtain ⟨c2, m2⟩ := createPres .diff
              (createCSGTerm .inter lx (.prim rps rm rc rlab rbb)) ly c1 hcly
            refine ⟨c2, fun p => ?_⟩
            rw [m2 p, m1 p]
            simp only [memT, opApply]
            exact boolRule7 _ _ _
          | union =>
            -- 9. (x + y) * z  -> (x * z) + (y * z)
            simp only [normalize_tail, reduceCtorEq, reduceIte, and_self, and_true,
              and_false, if_true, if_false, NR.ok.injEq, Option.some.injEq] at h
            subst h
            obtain ⟨c1, m1⟩ := createPres .inter lx (.prim rps rm rc rlab rbb) hclx hcr
            obtain ⟨c2, m2⟩ := createPres .inter ly (.prim rps rm rc rlab rbb) hcly hcr
            obtain ⟨c3, m3⟩ := createPres .union
              (createCSGTerm .inter lx (.prim rps rm rc rlab rbb))
              (createCSGTerm .inter ly (.prim rps rm rc rlab rbb)) c1 c2
            refine ⟨c3, fun p => ?_⟩
            rw [m3 p, m1 p, m2 p]
            simp only [memT, opApply]
            exact boolRule9 _ _ _
        | diff =>
          cases lk with
          | inter => simp [normalize_tail] at h
          | diff => simp [normalize_tail] at h
          | union =>
            -- 8. (x + y) - z  -> (x - z) + (y - z)
            simp only [normalize_tail, reduceCtorEq, reduceIte, and_self, and_true,
              and_false, if_true, if_false, NR.ok.injEq, Option.some.injEq] at h
            subst h
            obtain ⟨c1, m1⟩ := createPres .diff lx (.prim rps rm rc rlab rbb) hclx hcr
            obtain ⟨c2, m2⟩ := createPres .diff ly (.prim rps rm rc rlab rbb) hcly hcr
            obtain ⟨c3, m3⟩ := createPres .union
              (createCSGTerm .diff lx (.prim rps rm rc rlab rbb))
              (createCSGTerm .diff ly (.prim rps rm rc rlab rbb)) c1 c2
            refine ⟨c3, fun p => ?_⟩
            rw [m3 p, m1 p, m2 p]
            simp only [memT, opApply]
            exact boolRule8 _ _ _
    | op rk ry rz rbb =>
      obtain ⟨hcry, hcrz, hrbox⟩ := hcr
      cases k with
      | union => simp [normalize_tail] at h
      | diff =>
        cases rk with
        | union =>
          -- 1.  x - (y + z) -> (x - y) - z
          simp only [normalize_tail, reduceCtorEq, reduceIte, NR.ok.injEq,
            Option.some.injEq] at h
          subst h
          obtain ⟨c1, m1⟩ := createPres .diff l ry hcl hcry
          obtain ⟨c2, m2⟩ := createPres .diff (createCSGTerm .diff l ry) rz c1 hcrz
          refine ⟨c2, fun p => ?_⟩
          rw [m2 p, m1 p]
          simp only [memT, opApply]
          exact boolRule1 _ _ _
        | inter =>
          -- 3.  x - (y * z) -> (x - y) + (x - z)
          simp only [normalize_tail, reduceCtorEq, reduceIte, NR.ok.injEq,
            Option.some.injEq] at h
          subst h
          obtain ⟨c1, m1⟩ := createPres .diff l ry hcl hcry
          obtain ⟨c2, m2⟩ := createPres .diff l rz hcl hcrz
          obtain ⟨c3, m3⟩ := createPres .union
            (createCSGTerm .diff l ry) (createCSGTerm .diff l rz) c1 c2
          refine ⟨c3, fun p => ?_⟩
          rw [m3 p, m1 p, m2 p]
          simp only [memT, opApply]
          exact boolRule3 _ _ _
        | diff =>
          -- 5.  x - (y - z) -> (x - y) + (x * z)
          simp only [normalize_tail, reduceCtorEq, reduceIte, NR.ok.injEq,
            Option.some.injEq] at h
          subst h
          obtain ⟨c1, m1⟩ := createPres .diff l ry hcl hcry
          obtain ⟨c2, m2⟩ := createPres .inter l rz hcl hcrz
          obtain ⟨c3, m3⟩ := createPres .union
            (createCSGTerm .diff l ry) (createCSGTerm .inter l rz) c1 c2
          refine ⟨c3, fun p => ?_⟩
          rw [m3 p, m1 p, m2 p]
          simp only [memT, opApply]
          exact boolRule5 _ _ _
      | inter =>
        cases rk with
        | union =>
          -- 2.  x * (y + z) -> (x * y) + (x * z)
          simp only [normalize_tail, reduceCtorEq, reduceIte, NR.ok.injEq,
            Option.some.injEq] at h
          subst h
          obtain ⟨c1, m1⟩ := createPres .inter l ry hcl hcry
          obtain ⟨c2, m2⟩ := createPres .inter l rz hcl hcrz
          obtain ⟨c3, m3⟩ := createPres .union
            (createCSGTerm .inter l ry) (createCSGTerm .inter l rz) c1 c2
          refine ⟨c3, fun p => ?_⟩
          rw [m3 p, m1 p, m2 p]
          simp only [memT, opApply]
          exact boolRule2 _ _ _
        | inter =>
          -- 4.  x * (y * z) -> (x * y) * z
          simp only [normalize_tail, reduceCtorEq, reduceIte, NR.ok.injEq,
            Option.some.injEq] at h
          subst h
          obtain ⟨c1, m1⟩ := createPres .inter l ry hcl hcry
          obtain ⟨c2, m2⟩ := createPres .inter (createCSGTerm .inter l ry) rz c1 hcrz
          refine ⟨c2, fun p => ?_⟩
          rw [m2 p, m1 p]
          simp only [memT, opApply]
          exact boolRule4 _ _ _
        | diff =>
          -- 6.  x * (y - z) -> (x * y) - z
          simp only [normalize_tail, reduceCtorEq, reduceIte, NR.ok.injEq,
            Option.some.injEq] at h
          subst h
          obtain ⟨c1, m1⟩ := createPres .inter l ry hcl hcry
          obtain ⟨c2, m2⟩ := createPres .diff (createCSGTerm .inter l ry) rz c1 hcrz
          refine ⟨c2, fun p => ?_⟩
          rw [m2 p, m1 p]
          simp only [memT, opApply]
          exact boolRule6 _ _ _

/-- The inner fixed-point loop preserves conservativity and membership. -/
theorem innerPres : ∀ (fuel : Nat) (t t' : CSGTerm), innerLoop fuel t = .ok t' →
    Cons t → Cons t' ∧ ∀ p, memT t' p = memT t p := by
  intro fuel
  induction fuel with
  | zero => intro t t' h hc; simp [innerLoop] at h
  | succ f ih =>
    intro t t' h hc
    cases t with
    | null =>
      simp only [innerLoop, NR.ok.injEq] at h
      subst h
      exact ⟨trivial, fun p => rfl⟩
    | prim ps m c lab bb =>
      simp only [innerLoop, normalize_tail, NR.ok.injEq] at h
      subst h
      exact ⟨hc, fun p => rfl⟩
    | op k l r bb =>
      cases ht : normalize_tail (.op k l r bb) with
      | crash => simp [innerLoop, ht] at h
      | nofuel => simp [innerLoop, ht] at h
      | ok o =>
        cases o with
        | none =>
          simp only [innerLoop, ht, NR.ok.injEq] at h
          subst h
          exact ⟨hc, fun p => rfl⟩
        | some t2 =>
          simp only [innerLoop, ht] at h
          obtain ⟨hc2, hm2⟩ := tailPres _ _ ht hc
          obtain ⟨hc', hm'⟩ := ih t2 t' h hc2
          exact ⟨hc', fun p => (hm' p).trans (hm2 p)⟩

/-! ### Helper lemmas for the final null-child collapse of `normalize` -/

theorem collapseMem (k2 : op_e) (l2 r2 r2' t : CSGTerm) (bb2 : Box) (p : Vec3)
    (hmt2 : memT (.op k2 l2 r2 bb2) p = memT t p)
    (hmr : memT r2' p = memT r2 p) :
    memT (.op k2 l2 r2' bb2) p = memT t p := by
  simp only [memT] at hmt2 ⊢
  rw [hmr]
  exact hmt2

theorem collapseCons (k2 : op_e) (l2 r2 r2' : CSGTerm) (bb2 : Box)
    (hcl2 : Cons l2) (hcr2' : Cons r2')
    (hbox2 : ∀ p, opApply k2 (memT l2 p) (memT r2 p) = true → inBox bb2 p = true)
    (hmr : ∀ p, memT r2' p = memT r2 p) : Cons (.op k2 l2 r2' bb2) := by
  exact ⟨hcl2, hcr2', fun p hp => hbox2 p (by
    rw [hmr p] at hp
    exact hp)⟩

theorem collapseNullRUnion (l2 r2 t : CSGTerm) (bb2 : Box) (p : Vec3)
    (hmt2 : memT (.op .union l2 r2 bb2) p = memT t p)
    (hr0 : memT r2 p = false) : memT l2 p = memT t p := by
  simp only [memT, opApply, hr0, Bool.or_false] at hmt2
  exact hmt2

theorem collapseNullRDiff (l2 r2 t : CSGTerm) (bb2 : Box) (p : Vec3)
    (hmt2 : memT (.op .diff l2 r2 bb2) p = memT t p)
    (hr0 : memT r2 p = false) : memT l2 p = memT t p := by
  simp only [memT, opApply, hr0, Bool.not_false, Bool.and_true] at hmt2
  exact hmt2

theorem collapseNullRInter (l2 r2 t : CSGTerm) (bb2 : Box) (p : Vec3)
    (hmt2 : memT (.op .inter l2 r2 bb2) p = memT t p)
    (hr0 : memT r2 p = false) : memT CSGTerm.null p = memT t p := by
  simp only [memT, opApply, hr0, Bool.and_false] at hmt2
  simpa [memT] using hmt2

theorem collapseNullLUnion (r2 r2' t : CSGTerm) (bb2 : Box) (p : Vec3)
    (hmt2 : memT (.op .union .null r2 bb2) p = memT t p)
    (hmr : memT r2' p = memT r2 p) : memT r2' p = memT t p := by
  simp only [memT, opApply, Bool.false_or] at hmt2
  rw [hmr]
  exact hmt2

theorem collapseNullLInter (r2 t : CSGTerm) (bb2 : Box) (p : Vec3)
    (hmt2 : memT (.op .inter .null r2 bb2) p = memT t p) :
    memT CSGTerm.null p = memT t p := by
  simp only [memT, opApply, Bool.false_and] at hmt2
  simpa [memT] using hmt2

theorem collapseNullLDiff (r2 t : CSGTerm) (bb2 : Box) (p : Vec3)
    (hmt2 : memT (.op .diff .null r2 bb2) p = memT t p) :
    memT CSGTerm.null p = memT t p := by
  simp only [memT, opApply, Bool.false_and] at hmt2
  simpa [memT] using hmt2

/-- Main preservation induction: at every fuel level, both the outer
`do`-loop and `normalize` itself preserve conservativity and pointwise
membership whenever they return normally. -/
theorem normPres : ∀ fuel : Nat,
    (∀ t res, outerLoop fuel t = .ok res → Cons t →
      (∀ o, res = .inl o → Cons o ∧ ∀ p, memT o p = memT t p) ∧
      (∀ t2, res = .inr t2 → Cons t2 ∧ ∀ p, memT t2 p = memT t p)) ∧
    (∀ t res, normalizeF fuel t = .ok res → Cons t →
      Cons res ∧ ∀ p, memT res p = memT t p) := by
  intro fuel
  induction fuel with
  | zero =>
    constructor
    · intro t res h; simp [outerLoop] at h
    · intro t res h; cases t <;> simp [normalizeF] at h
  | succ f ih =>
    obtain ⟨ihO, ihN⟩ := ih
    constructor
    · -- outerLoop (f+1)
      intro t res h hc
      cases hI : innerLoop (f + 1) t with
      | crash => simp [outerLoop, hI] at h
      | nofuel => simp [outerLoop, hI] at h
      | ok t1 =>
        obtain ⟨hct1, hmt1⟩ := innerPres (f + 1) t t1 hI hc
        cases t1 with
        | null =>
          simp only [outerLoop, hI, NR.ok.injEq] at h
          subst h
          refine ⟨fun o ho => ?_, fun t2 ht2 => by cases ht2⟩
          cases ho
          exact ⟨trivial, hmt1⟩
        | prim ps m c lab bb =>
          simp only [outerLoop, hI, NR.ok.injEq] at h
          subst h
          refine ⟨fun o ho => ?_, fun t2 ht2 => by cases ht2⟩
          cases ho
          exact ⟨hct1, hmt1⟩
        | op k l r bb =>
          obtain ⟨hcl, hcr, hbox⟩ := hct1
          cases hL : normalizeF f l with
          | crash => simp [outerLoop, hI, hL] at h
          | nofuel => simp [outerLoop, hI, hL] at h
          | ok l' =>
            obtain ⟨hcl', hml'⟩ := ihN l l' hL hcl
            have hmt2 : ∀ p, memT (.op k l' r bb) p = memT (.op k l r bb) p :=
              fun p => by simp only [memT, hml' p]
            have hct2 : Cons (.op k l' r bb) :=
              ⟨hcl', hcr, fun p hp => hbox p (by
                simp only [memT] at hmt2
                rw [hmt2 p] at hp
                exact hp)⟩
            cases hC : whileCond (.op k l' r bb) with
            | crash => simp [outerLoop, hI, hL, hC] at h
            | nofuel => simp [outerLoop, hI, hL, hC] at h
            | ok b =>
              cases b with
              | true =>
                simp only [outerLoop, hI, hL, hC] at h
                obtain ⟨hInl, hInr⟩ := ihO (.op k l' r bb) res h hct2
                refine ⟨fun o ho => ?_, fun t2 ht2 => ?_⟩
                · obtain ⟨hco, hmo⟩ := hInl o ho
                  exact ⟨hco, fun p => (hmo p).trans ((hmt2 p).trans (hmt1 p))⟩
                · obtain ⟨hco, hmo⟩ := hInr t2 ht2
                  exact ⟨hco, fun p => (hmo p).trans ((hmt2 p).trans (hmt1 p))⟩
              | false =>
                simp only [outerLoop, hI, hL, hC, NR.ok.injEq] at h
                subst h
                refine ⟨(fun o ho => nomatch ho), fun t2 ht2 => ?_⟩
                cases ht2
                exact ⟨hct2, fun p => (hmt2 p).trans (hmt1 p)⟩
    · -- normalizeF (f+1)
      intro t res h hc
      cases t with
      | null => simp [normalizeF] at h
      | prim ps m c lab bb =>
        simp only [normalizeF, NR.ok.injEq] at h
        subst h
        exact ⟨hc, fun p => rfl⟩
      | op k l r bb =>
        cases hO : outerLoop f (.op k l r bb) with
        | crash => simp [normalizeF, hO] at h
        | nofuel => simp [normalizeF, hO] at h
        | ok s =>
          have hOf := ihO (.op k l r bb) s hO hc
          cases s with
          | inl ret =>
            simp only [normalizeF, hO, NR.ok.injEq] at h
            subst h
            exact hOf.1 ret rfl
          | inr t2 =>
            obtain ⟨hct2, hmt2⟩ := hOf.2 t2 rfl
            cases t2 with
            | null => simp [normalizeF, hO] at h
            | prim _ _ _ _ _ => simp [normalizeF, hO] at h
            | op k2 l2 r2 bb2 =>
              obtain ⟨hcl2, hcr2, hbox2⟩ := hct2
              cases hR : normalizeF f r2 with
              | crash => simp [normalizeF, hO, hR] at h
              | nofuel => simp [normalizeF, hO, hR] at h
              | ok r2' =>
                obtain ⟨hcr2', hmr2'⟩ := ihN r2 r2' hR hcr2
                cases r2' with
                | null =>
                  have hr0 : ∀ p, memT r2 p = false := fun p => (hmr2' p).symm
                  cases k2 with
                  | union =>
                    simp only [normalizeF, hO, hR, NR.ok.injEq] at h
                    subst h
                    exact ⟨hcl2, fun p => collapseNullRUnion l2 r2 _ bb2 p (hmt2 p) (hr0 p)⟩
                  | diff =>
                    simp only [normalizeF, hO, hR, NR.ok.injEq] at h
                    subst h
                    exact ⟨hcl2, fun p => collapseNullRDiff l2 r2 _ bb2 p (hmt2 p) (hr0 p)⟩
                  | inter =>
                    simp only [normalizeF, hO, hR, NR.ok.injEq] at h
                    subst h
                    exact ⟨trivial, fun p => collapseNullRInter l2 r2 _ bb2 p (hmt2 p) (hr0 p)⟩
                | prim rps2 rm2 rc2 rlab2 rbb2 =>
                  cases l2 with
                  | null =>
                    cases k2 with
                    | union =>
                      simp only [normalizeF, hO, hR, NR.ok.injEq] at h
                      subst h
                      exact ⟨hcr2', fun p =>
                        collapseNullLUnion r2 _ _ bb2 p (hmt2 p) (hmr2' p)⟩
                    | inter =>
                      simp only [normalizeF, hO, hR, NR.ok.injEq] at h
                      subst h
                      exact ⟨trivial, fun p => collapseNullLInter r2 _ bb2 p (hmt2 p)⟩
                    | diff =>
                      simp only [normalizeF, hO, hR, NR.ok.injEq] at h
                      subst h
                      exact ⟨trivial, fun p => collapseNullLDiff r2 _ bb2 p (hmt2 p)⟩
                  | prim _ _ _ _ _ =>
                    simp only [normalizeF, hO, hR, NR.ok.injEq] at h
                    subst h
                    exact ⟨collapseCons k2 _ r2 _ bb2 hcl2 hcr2' hbox2 hmr2',
                      fun p => collapseMem k2 _ r2 _ _ bb2 p (hmt2 p) (hmr2' p)⟩
                  | op _ _ _ _ =>
                    simp only [normalizeF, hO, hR, NR.ok.injEq] at h
                    subst h
                    exact ⟨collapseCons k2 _ r2 _ bb2 hcl2 hcr2' hbox2 hmr2',
                      fun p => collapseMem k2 _ r2 _ _ bb2 p (hmt2 p) (hmr2' p)⟩
                | op rk2 rl2 rr2 rbb2 =>
                  cases l2 with
                  | null =>
                    cases k2 with
                    | union =>
                      simp only [normalizeF, hO, hR, NR.ok.injEq] at h
                      subst h
                      exact ⟨hcr2', fun p =>
                        collapseNullLUnion r2 _ _ bb2 p (hmt2 p) (hmr2' p)⟩
                    | inter =>
                      simp only [normalizeF, hO, hR, NR.ok.injEq] at h
                      subst h
                      exact ⟨trivial, fun p => collapseNullLInter r2 _ bb2 p (hmt2 p)⟩
                    | diff =>
                      simp only [normalizeF, hO, hR, NR.ok.injEq] at h
                      subst h
                      exact ⟨trivial, fun p => collapseNullLDiff r2 _ bb2 p (hmt2 p)⟩
                  | prim _ _ _ _ _ =>
                    simp only [normalizeF, hO, hR, NR.ok.injEq] at h
                    subst h
                    exact ⟨collapseCons k2 _ r2 _ bb2 hcl2 hcr2' hbox2 hmr2',
                      fun p => collapseMem k2 _ r2 _ _ bb2 p (hmt2 p) (hmr2' p)⟩
                  | op _ _ _ _ =>
                    simp only [normalizeF, hO, hR, NR.ok.injEq] at h
                    subst h
                    exact ⟨collapseCons k2 _ r2 _ bb2 hcl2 hcr2' hbox2 hmr2',
                      fun p => collapseMem k2 _ r2 _ _ bb2 p (hmt2 p) (hmr2' p)⟩

/-- Constructed cached boxes plus conservative primitives give a fully
conservative tree. -/
theorem wfbCons : ∀ t : CSGTerm, WFB t = true → PrimCons t → Cons t := by
  intro t
  induction t with
  | null => intro _ _; trivial
  | prim ps m c lab bb => intro _ hp; exact hp
  | op k l r bb ihl ihr =>
    intro hw hp
    simp only [WFB, Bool.and_eq_true, decide_eq_true_eq] at hw
    obtain ⟨⟨⟨⟨hnl, hnr⟩, hwl⟩, hwr⟩, hbb⟩ := hw
    obtain ⟨hpl, hpr⟩ := hp
    have hcl := ihl hwl hpl
    have hcr := ihr hwr hpr
    refine ⟨hcl, hcr, fun p hm => ?_⟩
    subst hbb
    exact opBBox_cons k l.bbox r.bbox p _ _ (memT_inBox hcl p) (memT_inBox hcr p) hm

/-! ### Normal-form shape (the outer-loop stability condition) -/

/-- `normalize` on a primitive returns the primitive itself. -/
theorem normPrim (fuel : Nat) (ps : PolySet) (m : Transform) (c : Color)
    (lab : String) (bb : Box) (r : CSGTerm)
    (h : normalizeF fuel (.prim ps m c lab bb) = .ok r) :
    r = .prim ps m c lab bb := by
  cases fuel with
  | zero => simp [normalizeF] at h
  | succ f =>
    simp only [normalizeF, NR.ok.injEq] at h
    exact h.symm

/-- Building the stability predicate at a node from its parts. -/
theorem NFb_node (k2 : op_e) (l2 r2 : CSGTerm) (bb2 : Box)
    (hiso : isPrimOrNull r2 = true) (hlu : isUnionNode l2 = false)
    (hNl : NFb l2 = true) (hNr : NFb r2 = true) :
    NFb (.op k2 l2 r2 bb2) = true := by
  show (decide (k2 = op_e.union) ||
    (isPrimOrNull r2 && !(isUnionNode l2) && NFb l2 && NFb r2)) = true
  rw [hiso, hlu, hNl, hNr]
  simp

/-- What a false `while` guard says about the node's shape. -/
theorem whileCondFalse (k2 : op_e) (l2 r2 : CSGTerm) (bb2 : Box)
    (h : whileCond (.op k2 l2 r2 bb2) = .ok false) (hk : k2 ≠ .union) :
    (∃ ps m c lab bb, r2 = .prim ps m c lab bb) ∧ isUnionNode l2 = false := by
  have hkd : (k2 = op_e.union) = False := by simp [hk]
  cases r2 with
  | null => simp [whileCond, hkd] at h
  | op _ _ _ _ => simp [whileCond, hkd] at h
  | prim rps rm rc rlab rbb =>
    refine ⟨⟨rps, rm, rc, rlab, rbb, rfl⟩, ?_⟩
    cases l2 with
    | null => simp [whileCond, hkd] at h
    | prim _ _ _ _ _ => rfl
    | op lk _ _ _ =>
      simp only [whileCond, hkd, if_false, NR.ok.injEq, decide_eq_false_iff_not] at h
      cases lk with
      | union => exact absurd rfl h
      | inter => rfl
      | diff => rfl

/-- Normal-form induction: whatever `normalize` returns satisfies the
stability condition everywhere (C2), with the loop-exit facts carried
through the outer loop. -/
theorem normNF : ∀ fuel : Nat,
    (∀ t res, outerLoop fuel t = .ok res →
      (∀ o, res = .inl o → NFb o = true) ∧
      (∀ t2, res = .inr t2 → whileCond t2 = .ok false ∧
        ∃ k l r bb, t2 = .op k l r bb ∧ NFb l = true)) ∧
    (∀ t res, normalizeF fuel t = .ok res → NFb res = true) := by
  intro fuel
  induction fuel with
  | zero =>
    constructor
    · intro t res h; simp [outerLoop] at h
    · intro t res h; cases t <;> simp [normalizeF] at h
  | succ f ih =>
    obtain ⟨ihO, ihN⟩ := ih
    constructor
    · intro t res h
      cases hI : innerLoop (f + 1) t with
      | crash => simp [outerLoop, hI] at h
      | nofuel => simp [outerLoop, hI] at h
      | ok t1 =>
        cases t1 with
        | null =>
          simp only [outerLoop, hI, NR.ok.injEq] at h
          subst h
          exact ⟨fun o ho => by cases ho; rfl, fun t2 ht2 => nomatch ht2⟩
        | prim ps m c lab bb =>
          simp only [outerLoop, hI, NR.ok.injEq] at h
          subst h
          exact ⟨fun o ho => by cases ho; rfl, fun t2 ht2 => nomatch ht2⟩
        | op k l r bb =>
          cases hL : normalizeF f l with
          | crash => simp [outerLoop, hI, hL] at h
          | nofuel => simp [outerLoop, hI, hL] at h
          | ok l' =>
            have hNl' : NFb l' = true := ihN l l' hL
            cases hC : whileCond (.op k l' r bb) with
            | crash => simp [outerLoop, hI, hL, hC] at h
            | nofuel => simp [outerLoop, hI, hL, hC] at h
            | ok b =>
              cases b with
              | true =>
                simp only [outerLoop, hI, hL, hC] at h
                exact ihO (.op k l' r bb) res h
              | false =>
                simp only [outerLoop, hI, hL, hC, NR.ok.injEq] at h
                subst h
                refine ⟨(fun o ho => nomatch ho), fun t2 ht2 => ?_⟩
                cases ht2
                exact ⟨hC, k, l', r, bb, rfl, hNl'⟩
    · intro t res h
      cases t with
      | null => simp [normalizeF] at h
      | prim ps m c lab bb =>
        simp only [normalizeF, NR.ok.injEq] at h
        subst h
        rfl
      | op k l r bb =>
        cases hO : outerLoop f (.op k l r bb) with
        | crash => simp [normalizeF, hO] at h
        | nofuel => simp [normalizeF, hO] at h
        | ok s =>
          have hOf := ihO (.op k l r bb) s hO
          cases s with
          | inl ret =>
            simp only [normalizeF, hO, NR.ok.injEq] at h
            subst h
            exact hOf.1 ret rfl
          | inr t2 =>
            obtain ⟨hcond, k2, l2, r2, bb2, ht2, hNl2⟩ := hOf.2 t2 rfl
            subst ht2
            cases hR : normalizeF f r2 with
            | crash => simp [normalizeF, hO, hR] at h
            | nofuel => simp [normalizeF, hO, hR] at h
            | ok r2' =>
              have hNr2' : NFb r2' = true := ihN r2 r2' hR
              cases r2' with
              | null =>
                cases k2 with
                | union =>
                  simp only [normalizeF, hO, hR, NR.ok.injEq] at h
                  subst h; exact hNl2
                | diff =>
                  simp only [normalizeF, hO, hR, NR.ok.injEq] at h
                  subst h; exact hNl2
                | inter =>
                  simp only [normalizeF, hO, hR, NR.ok.injEq] at h
                  subst h; rfl
              | prim rps2 rm2 rc2 rlab2 rbb2 =>
                by_cases hk : k2 = op_e.union
                · subst hk
                  cases l2 with
                  | null =>
                    simp only [normalizeF, hO, hR, NR.ok.injEq] at h
                    subst h; rfl
                  | prim _ _ _ _ _ =>
                    simp only [normalizeF, hO, hR, NR.ok.injEq] at h
                    subst h; rfl
                  | op _ _ _ _ =>
                    simp only [normalizeF, hO, hR, NR.ok.injEq] at h
                    subst h; rfl
                · obtain ⟨⟨ps0, m0, c0, lab0, bb0, hr2⟩, hlu⟩ :=
                    whileCondFalse k2 l2 r2 bb2 hcond hk
                  subst hr2
                  have hr2' : (CSGTerm.prim rps2 rm2 rc2 rlab2 rbb2) =
                      .prim ps0 m0 c0 lab0 bb0 := normPrim f ps0 m0 c0 lab0 bb0 _ hR
                  cases l2 with
                  | null =>
                    cases k2 with
                    | union => exact absurd rfl hk
                    | inter =>
                      simp only [normalizeF, hO, hR, NR.ok.injEq] at h
                      subst h; rfl
                    | diff =>
                      simp only [normalizeF, hO, hR, NR.ok.injEq] at h
                      subst h; rfl
                  | prim _ _ _ _ _ =>
                    simp only [normalizeF, hO, hR, NR.ok.injEq] at h
                    subst h
                    exact NFb_node k2 _ _ bb2 rfl rfl rfl rfl
                  | op lk2 ll2 lr2 lbb2 =>
                    simp only [normalizeF, hO, hR, NR.ok.injEq] at h
                    subst h
                    exact NFb_node k2 _ _ bb2 rfl hlu hNl2 rfl
              | op rk2 rl2 rr2 rbb2 =>
                by_cases hk : k2 = op_e.union
                · subst hk
                  cases l2 with
                  | null =>
                    simp only [normalizeF, hO, hR, NR.ok.injEq] at h
                    subst h; exact hNr2'
                  | prim _ _ _ _ _ =>
                    simp only [normalizeF, hO, hR, NR.ok.injEq] at h
                    subst h; rfl
                  | op _ _ _ _ =>
                    simp only [normalizeF, hO, hR, NR.ok.injEq] at h
                    subst h; rfl
                · obtain ⟨⟨ps0, m0, c0, lab0, bb0, hr2⟩, hlu⟩ :=
                    whileCondFalse k2 l2 r2 bb2 hcond hk
                  subst hr2
                  exact absurd (normPrim f ps0 m0 c0 lab0 bb0 _ hR) (by simp)

/-! ### Deeply stable trees are fixed points of `normalize` -/

theorem NFdeep_parts (k : op_e) (l r : CSGTerm) (bb : Box)
    (hd : NFdeep (.op k l r bb) = true) :
    NFdeep l = true ∧ NFdeep r = true ∧ stableNode (.op k l r bb) = true := by
  have e : NFdeep (.op k l r bb) =
      (NFdeep l && NFdeep r && stableNode (.op k l r bb)) := rfl
  rw [e, Bool.and_eq_true, Bool.and_eq_true] at hd
  exact ⟨hd.1.1, hd.1.2, hd.2⟩

theorem NFdeep_nonnull {t : CSGTerm} (hd : NFdeep t = true) : t ≠ .null := by
  intro h
  subst h
  simp [NFdeep] at hd

/-- A stable node admits no tail rewrite. -/
theorem stable_tail (k : op_e) (l r : CSGTerm) (bb : Box)
    (hdl : l ≠ .null) (hdr : r ≠ .null)
    (hs : stableNode (.op k l r bb) = true) :
    normalize_tail (.op k l r bb) = .ok none := by
  by_cases hk : k = op_e.union
  · subst hk; simp [normalize_tail]
  · cases r with
    | null => exact absurd rfl hdr
    | op _ _ _ _ => simp [stableNode, isPrimOrNull, hk] at hs
    | prim rps rm rc rlab rbb =>
      cases l with
      | null => exact absurd rfl hdl
      | prim _ _ _ _ _ =>
        cases k with
        | union => exact absurd rfl hk
        | inter => simp [normalize_tail]
        | diff => simp [normalize_tail]
      | op lk lx ly lbb =>
        simp only [stableNode, isPrimOrNull, isUnionNode, isDiffNode, hk,
          decide_eq_false_iff_not, Bool.false_or, Bool.and_eq_true,
          Bool.not_eq_true', Bool.true_and, ne_eq, not_false_eq_true,
          decide_not, decide_eq_true_eq] at hs
        cases k with
        | union => exact absurd rfl hk
        | inter =>
          cases lk with
          | union => simp at hs
          | inter => simp [normalize_tail]
          | diff => simp at hs
        | diff =>
          cases lk with
          | union => simp at hs
          | inter => simp [normalize_tail]
          | diff => simp [normalize_tail]

/-- A stable node also fails the `while` guard. -/
theorem stable_cond (k : op_e) (l r : CSGTerm) (bb : Box)
    (hdl : l ≠ .null) (hdr : r ≠ .null)
    (hs : stableNode (.op k l r bb) = true) :
    whileCond (.op k l r bb) = .ok false := by
  by_cases hk : k = op_e.union
  · subst hk; simp [whileCond]
  · cases r with
    | null => exact absurd rfl hdr
    | op _ _ _ _ => simp [stableNode, isPrimOrNull, hk] at hs
    | prim rps rm rc rlab rbb =>
      cases l with
      | null => exact absurd rfl hdl
      | prim _ _ _ _ _ => simp [whileCond, hk]
      | op lk lx ly lbb =>
        simp only [stableNode, isPrimOrNull, isUnionNode, isDiffNode, hk,
          decide_eq_false_iff_not, Bool.false_or, Bool.and_eq_true,
          Bool.not_eq_true', Bool.true_and, ne_eq, not_false_eq_true,
          decide_not, decide_eq_true_eq] at hs
        cases lk with
        | union => simp at hs
        | inter => simp [whileCond, hk]
        | diff => simp [whileCond, hk]

/-- One unfolding step of `normalizeF` on an operator node whose outer
loop exits with the node itself and whose right child renormalizes to
itself. -/
theorem normalizeF_succ_op (f : Nat) (k : op_e) (l r : CSGTerm) (bb : Box)
    (hO : outerLoop f (.op k l r bb) = .ok (.inr (.op k l r bb)))
    (hR : normalizeF f r = .ok r) (hln : l ≠ .null) (hrn : r ≠ .null) :
    normalizeF (f + 1) (.op k l r bb) = .ok (.op k l r bb) := by
  cases r with
  | null => exact absurd rfl hrn
  | prim _ _ _ _ _ =>
    cases l with
    | null => exact absurd rfl hln
    | prim _ _ _ _ _ => simp only [normalizeF, hO, hR]
    | op _ _ _ _ => simp only [normalizeF, hO, hR]
  | op _ _ _ _ =>
    cases l with
    | null => exact absurd rfl hln
    | prim _ _ _ _ _ => simp only [normalizeF, hO, hR]
    | op _ _ _ _ => simp only [normalizeF, hO, hR]

/-- A deeply stable tree is returned unchanged by `normalize`, given
enough fuel. -/
theorem normFix : ∀ (fuel : Nat) (t : CSGTerm), NFdeep t = true →
    fuelNeed t ≤ fuel → normalizeF fuel t = .ok t := by
  intro fuel
  induction fuel using Nat.strong_induction_on with
  | _ fuel ih =>
    intro t hd hf
    cases t with
    | null => simp [NFdeep] at hd
    | prim ps m c lab bb =>
      cases fuel with
      | zero => simp [fuelNeed] at hf
      | succ f => simp [normalizeF]
    | op k l r bb =>
      obtain ⟨hdl, hdr, hst⟩ := NFdeep_parts k l r bb hd
      have hln := NFdeep_nonnull hdl
      have hrn := NFdeep_nonnull hdr
      have htail := stable_tail k l r bb hln hrn hst
      have hcond := stable_cond k l r bb hln hrn hst
      simp only [fuelNeed] at hf
      cases fuel with
      | zero => omega
      | succ n =>
        have hfl : fuelNeed l + 1 ≤ n := by omega
        have hfr : fuelNeed r ≤ n := by omega
        cases n with
        | zero => omega
        | succ m =>
          have hinner : innerLoop (m + 1) (.op k l r bb) = .ok (.op k l r bb) := by
            simp [innerLoop, htail]
          have hl : normalizeF m l = .ok l :=
            ih m (by omega) l hdl (by omega)
          have houter : outerLoop (m + 1) (.op k l r bb) =
              .ok (.inr (.op k l r bb)) := by
            simp only [outerLoop, hinner, hl, hcond]
          have hr : normalizeF (m + 1) r = .ok r :=
            ih (m + 1) (by omega) r hdr (by omega)
          exact normalizeF_succ_op (m + 1) k l r bb houter hr hln hrn

/-! ### Chain flattening and aggregation -/

theorem importSpec : ∀ (t : CSGTerm) (ty : type_e), noNullKids t = true →
    importChain t ty = .ok (flattenSpec t ty) := by
  intro t
  induction t with
  | null => intro ty h; simp [noNullKids] at h
  | prim ps m c lab bb => intro ty _; rfl
  | op k l r bb ihl ihr =>
    intro ty h
    simp only [noNullKids, Bool.and_eq_true] at h
    simp only [importChain, ihl ty h.1, ihr (opType k) h.2, flattenSpec]

theorem flattenLen : ∀ (t : CSGTerm) (ty : type_e),
    (flattenSpec t ty).length = leafCount t := by
  intro t
  induction t with
  | null => intro ty; rfl
  | prim ps m c lab bb => intro ty; rfl
  | op k l r bb ihl ihr =>
    intro ty
    simp only [flattenSpec, leafCount, List.length_append, ihl, ihr]

theorem foldl_filter {α β : Type} (q : α → Prop) [DecidablePred q] (f : β → α → β) :
    ∀ (ch : List α) (acc : β),
      ch.foldl (fun acc rc => if q rc then f acc rc else acc) acc =
        (ch.filter (fun rc => decide (q rc))).foldl f acc := by
  intro ch
  induction ch with
  | nil => intro acc; rfl
  | cons hd tl ih =>
    intro acc
    by_cases hp : q hd
    · simp [List.foldl, List.filter_cons, hp, ih]
    · simp [List.foldl, List.filter_cons, hp, ih]

theorem chainBBox_eq_spec (ch : List ChainRec) : chainBBox ch = specBBox ch := by
  have h := foldl_filter (fun rc : ChainRec => rc.ty ≠ type_e.TYPE_DIFFERENCE)
    (fun acc rc =>
      if rc.ps.bbox.isNull then acc
      else extendO (extendO acc (rc.m.apply rc.ps.bbox.lo)) (rc.m.apply rc.ps.bbox.hi))
    ch none
  exact h

theorem chainBBox_all_diff (ch : List ChainRec)
    (h : ∀ rc ∈ ch, rc.ty = type_e.TYPE_DIFFERENCE) : chainBBox ch = none := by
  rw [chainBBox_eq_spec, specBBox]
  have e : ch.filter (fun rc => rc.ty ≠ type_e.TYPE_DIFFERENCE) = [] := by
    rw [List.filter_eq_nil_iff]
    intro rc hrc
    simp [h rc hrc]
  rw [e]
  rfl

/-! ### Box-shape lemmas for leaf and operator construction -/

theorem box2_of_le (p q : Vec3) (h : vecLE p q) : box2 p q = ⟨p, q⟩ := by
  obtain ⟨h1, h2, h3⟩ := h
  cases p; cases q
  simp only [box2, cwMin, cwMax, Box.mk.injEq, Vec3.mk.injEq] at *
  omega

theorem inBox_box2_fst (p q : Vec3) : inBox (box2 p q) p = true := by
  rw [inBox_iff]
  simp only [box2, cwMin, cwMax]
  omega

theorem inBox_box2_snd (p q : Vec3) : inBox (box2 p q) q = true := by
  rw [inBox_iff]
  simp only [box2, cwMin, cwMax]
  omega

/-- The cached leaf box is conservative for axis-aligned transforms
(zero off-diagonal linear part, non-negative scales). -/
theorem leafBBox_axis_conservative (ps : PolySet) (m : Transform)
    (h12 : m.a12 = 0) (h13 : m.a13 = 0) (h21 : m.a21 = 0) (h23 : m.a23 = 0)
    (h31 : m.a31 = 0) (h32 : m.a32 = 0)
    (h11 : 0 ≤ m.a11) (h22 : 0 ≤ m.a22) (h33 : 0 ≤ m.a33)
    (p : Vec3) (hp : inBox ps.bbox p = true) :
    inBox (leafBBox ps m) (m.apply p) = true := by
  rw [inBox_iff] at hp ⊢
  obtain ⟨hx1, hx2, hy1, hy2, hz1, hz2⟩ := hp
  have e1 := mul_le_mul_of_nonneg_left hx1 h11
  have e2 := mul_le_mul_of_nonneg_left hx2 h11
  have e3 := mul_le_mul_of_nonneg_left hy1 h22
  have e4 := mul_le_mul_of_nonneg_left hy2 h22
  have e5 := mul_le_mul_of_nonneg_left hz1 h33
  have e6 := mul_le_mul_of_nonneg_left hz2 h33
  simp only [leafBBox, box2, Transform.apply, cwMin, cwMax, h12, h13, h21, h23,
    h31, h32, zero_mul, add_zero, zero_add] at *
  omega

/-! ### Concrete instances used by witnesses and counterexamples -/

/-- C1: for every CSG tree whose cached boxes are the constructed ones
and whose primitives' cached boxes enclose their transformed solids,
point membership in the tree returned by `normalize` equals point
membership in the input tree (bounding-box pruning is sound). -/
theorem c1_normalize_preserves_membership (fuel : Nat) (t res : CSGTerm)
    (hw : WFB t = true) (hp : PrimCons t)
    (hok : normalizeF fuel t = .ok res) :
    ∀ p : Vec3, memT res p = memT t p :=
  ((normPres fuel).2 t res hok (wfbCons t hw hp)).2

/-- Witness for C1 at `A * (B + C)`. -/
theorem c1_membership_witness : memT resC1 ⟨1, 1, 1⟩ = memT tC1 ⟨1, 1, 1⟩ :=
  c1_normalize_preserves_membership 5 tC1 resC1 (by decide)
    ⟨fun _ h => h, fun _ h => h, fun _ h => h⟩ rfl ⟨1, 1, 1⟩

/-- C2: every tree returned by `normalize` satisfies the outer-loop
stability condition at every node reachable without passing through a
Union: the node is a Union, or its right child is a Primitive (or
absent) and its left child is not a Union. -/
theorem c2_normal_form (fuel : Nat) (t res : CSGTerm)
    (hok : normalizeF fuel t = .ok res) : NFb res = true :=
  (normNF fuel).2 t res hok

/-- Witness for C2 at `A - (B + C)`. -/
theorem c2_normal_form_witness : NFb resC2 = true :=
  c2_normal_form 5 tC2 resC2 rfl

/-- C3 counterexample: `(A - B) * C` has a Primitive right child, yet
`normalize_tail` fires rule 7 on it rather than reporting "no rewrite". -/
theorem c3_counterexample : normalize_tail tC3cex ≠ NR.ok none := by
  have e : normalize_tail tC3cex = .ok (some (createCSGTerm .diff
      (createCSGTerm .inter (leafW "A") (leafW "C")) (leafW "B"))) := rfl
  rw [e]
  simp

/-- C3 (amended): `normalize_tail` reports "no rewrite" for a Primitive,
for a Union, and for an operator whose right child is a Primitive
provided additionally that the (non-null) left child is not a Union and
not a Difference under an Intersection (otherwise rules 7-9 fire). -/
theorem c3_no_rewrite_amended :
    (∀ ps m c lab bb, normalize_tail (.prim ps m c lab bb) = .ok none) ∧
    (∀ l r bb, normalize_tail (.op .union l r bb) = .ok none) ∧
    (∀ (k : op_e) (l : CSGTerm) ps m c lab rbb bb, l ≠ .null →
      isUnionNode l = false → ¬(k = .inter ∧ isDiffNode l = true) →
      normalize_tail (.op k l (.prim ps m c lab rbb) bb) = .ok none) := by
  refine ⟨fun _ _ _ _ _ => rfl, fun l r bb => by simp [normalize_tail],
    fun k l ps m c lab rbb bb hln hlu hkd => ?_⟩
  by_cases hk : k = op_e.union
  · subst hk; simp [normalize_tail]
  · cases l with
    | null => exact absurd rfl hln
    | prim _ _ _ _ _ =>
      cases k with
      | union => exact absurd rfl hk
      | inter => simp [normalize_tail]
      | diff => simp [normalize_tail]
    | op lk _ _ _ =>
      cases k with
      | union => exact absurd rfl hk
      | inter =>
        cases lk with
        | union => simp [isUnionNode] at hlu
        | inter => simp [normalize_tail]
        | diff => exact absurd ⟨rfl, rfl⟩ hkd
      | diff =>
        cases lk with
        | union => simp [isUnionNode] at hlu
        | inter => simp [normalize_tail]
        | diff => simp [normalize_tail]

/-- Witness for C3 (amended) at `(A * B) - C` and friends. -/
theorem c3_amended_witness :
    normalize_tail (.op .diff (mkOp .inter (leafW "A") (leafW "B")) (leafW "C")
      (opBBox .diff (mkOp .inter (leafW "A") (leafW "B")).bbox (leafW "C").bbox)) =
      .ok none :=
  c3_no_rewrite_amended.2.2 .diff (mkOp .inter (leafW "A") (leafW "B"))
    psW idT colW "C" (leafBBox psW idT) _
    (by intro h; exact CSGTerm.noConfusion h) rfl (by intro h; exact absurd h.1 (by simp))

/-- C4: with both children present, an empty overlap box prunes an
Intersection to absent and a Difference to its left child unchanged,
while a Union never prunes and always constructs the operator node. -/
theorem c4_pruning (lt rt : CSGTerm) (hl : lt ≠ .null) (hr : rt ≠ .null) :
    ((Box.mk (cwMax lt.bbox.lo rt.bbox.lo) (cwMin lt.bbox.hi rt.bbox.hi)).isNull = true →
      createCSGTerm .inter lt rt = .null ∧ createCSGTerm .diff lt rt = lt) ∧
    createCSGTerm .union lt rt = mkOp .union lt rt := by
  constructor
  · intro hnull
    rw [create_nonnull .inter lt rt hl hr, create_nonnull .diff lt rt hl hr]
    simp [hnull]
  · rw [create_nonnull .union lt rt hl hr]
    split <;> rfl

/-- Witness for C4 at two disjoint solids. -/
theorem c4_pruning_witness :
    createCSGTerm .inter (leafW "A") leafFar = .null ∧
    createCSGTerm .diff (leafW "A") leafFar = leafW "A" ∧
    createCSGTerm .union (leafW "A") leafFar = mkOp .union (leafW "A") leafFar := by
  have h := c4_pruning (leafW "A") leafFar
    (by intro h; exact CSGTerm.noConfusion h) (by intro h; exact CSGTerm.noConfusion h)
  exact ⟨(h.1 (by decide)).1, (h.1 (by decide)).2, h.2⟩

/-- C5: the absent-operand identity laws of `createCSGTerm`, with no
error signalled on absent operands. -/
theorem c5_identity_laws (t : CSGTerm) (ht : t ≠ .null) :
    createCSGTerm .union t .null = t ∧
    createCSGTerm .diff t .null = t ∧
    createCSGTerm .inter t .null = .null ∧
    createCSGTerm .union .null t = t ∧
    createCSGTerm .inter .null t = .null ∧
    createCSGTerm .diff .null t = .null := by
  cases t with
  | null => exact absurd rfl ht
  | prim _ _ _ _ _ => exact ⟨rfl, rfl, rfl, rfl, rfl, rfl⟩
  | op _ _ _ _ => exact ⟨rfl, rfl, rfl, rfl, rfl, rfl⟩

/-- Witness for C5 at the leaf `A`. -/
theorem c5_identity_witness :
    createCSGTerm .union (leafW "A") .null = leafW "A" ∧
    createCSGTerm .diff (leafW "A") .null = leafW "A" ∧
    createCSGTerm .inter (leafW "A") .null = .null ∧
    createCSGTerm .union .null (leafW "A") = leafW "A" ∧
    createCSGTerm .inter .null (leafW "A") = .null ∧
    createCSGTerm .diff .null (leafW "A") = .null :=
  c5_identity_laws (leafW "A") (by intro h; exact CSGTerm.noConfusion h)

/-- C6 counterexample: normalizing `(A * (B - C)) * D` once yields dump
`(((A * B) - C) * D)`, but normalizing the result again yields
`(((A * B) * D) - C)` — the dump strings differ, so normalization is not
idempotent. -/
theorem c6_counterexample :
    idemDumps 20 tC6 = some ("(((A * B) - C) * D)", "(((A * B) * D) - C)") ∧
    ("(((A * B) - C) * D)" : String) ≠ "(((A * B) * D) - C)" :=
  ⟨rfl, by decide⟩

/-- C6 (amended): a normalization result that is deeply stable (every
node, including under Unions, is a Union or has a Primitive right child
with a left child that is neither a Union nor a Difference under an
Intersection) is returned by `normalize` completely unchanged — hence
with an equal dump string.  In general idempotence fails (see the
counterexample). -/
theorem c6_idempotence_amended (fuel fuel2 : Nat) (t r : CSGTerm)
    (hnorm : normalizeF fuel t = .ok r) (hd : NFdeep r = true)
    (hf : fuelNeed r ≤ fuel2) : normalizeF fuel2 r = .ok r :=
  normFix fuel2 r hd hf

/-- Witness for C6 (amended) at `A - B`. -/
theorem c6_idempotence_witness : normalizeF 3 tC6w = .ok tC6w :=
  c6_idempotence_amended 5 3 tC6w tC6w rfl rfl (by decide)

/-- C7: `import` appends exactly one record per Primitive leaf in
left-to-right depth-first order — a Primitive is tagged with the
caller-supplied kind, an operator recurses left with the caller's kind
and right with its own kind — and on
`Union(Primitive(A), Difference(Primitive(B), Primitive(C)))` it yields
records `[(A, Union), (B, Union), (C, Difference)]`. -/
theorem c7_chain_flattening :
    (∀ (t : CSGTerm) (ty : type_e), noNullKids t = true →
      importChain t ty = .ok (flattenSpec t ty) ∧
      (flattenSpec t ty).length = leafCount t) ∧
    importChain tC7 .TYPE_UNION = .ok
      [⟨psW, idT, colW, .TYPE_UNION, "A"⟩, ⟨psW, idT, colW, .TYPE_UNION, "B"⟩,
        ⟨psW, idT, colW, .TYPE_DIFFERENCE, "C"⟩] :=
  ⟨fun t ty h => ⟨importSpec t ty h, flattenLen t ty⟩, rfl⟩

/-- Witness for C7 at the scenario tree with a Difference context. -/
theorem c7_flattening_witness :
    importChain tC7 .TYPE_DIFFERENCE = .ok (flattenSpec tC7 .TYPE_DIFFERENCE) ∧
    (flattenSpec tC7 .TYPE_DIFFERENCE).length = leafCount tC7 :=
  c7_chain_flattening.1 tC7 .TYPE_DIFFERENCE (by decide)

/-- C8: `getBoundingBox` extends an initially null box over the
transformed boxes of exactly the records not tagged Difference, and
returns the null box when every record is Difference-tagged. -/
theorem c8_chain_bbox :
    (∀ ch : List ChainRec, chainBBox ch = specBBox ch) ∧
    (∀ ch : List ChainRec, (∀ rc ∈ ch, rc.ty = type_e.TYPE_DIFFERENCE) →
      chainBBox ch = none) :=
  ⟨chainBBox_eq_spec, chainBBox_all_diff⟩

/-- Witness for C8 at a one-record Difference-only chain. -/
theorem c8_chain_bbox_witness : chainBBox chW = none :=
  c8_chain_bbox.2 chW (fun rc hrc => by
    simp only [chW, List.mem_singleton] at hrc
    subst hrc
    rfl)

/-- C9 counterexample: under the shear `(x, y, z) ↦ (x - y, y, z)` the
corner `(1, 0, 0)` of the solid's own box maps to `(1, 0, 0)`, which lies
outside the cached leaf box (built from the images of the `min`/`max`
corners only) — the cached box is *not* conservative for every affine
transform. -/
theorem c9_counterexample :
    inBox psC9.bbox ⟨1, 0, 0⟩ = true ∧
    inBox (mkPrim psC9 mShear colW "S").bbox (mShear.apply ⟨1, 0, 0⟩) = false :=
  ⟨rfl, rfl⟩

/-- C9 (amended): the leaf constructor caches the axis-aligned box
spanned by the images of the solid box's `min` and `max` corners only;
that box contains those two image points, and it is conservative for
axis-aligned transforms (zero off-diagonal entries and non-negative
scales), but not for general affine transforms (see the
counterexample). -/
theorem c9_leaf_bbox_amended :
    (∀ (ps : PolySet) (m : Transform) (c : Color) (lab : String),
      (mkPrim ps m c lab).bbox = box2 (m.apply ps.bbox.lo) (m.apply ps.bbox.hi) ∧
      inBox (mkPrim ps m c lab).bbox (m.apply ps.bbox.lo) = true ∧
      inBox (mkPrim ps m c lab).bbox (m.apply ps.bbox.hi) = true) ∧
    (∀ (ps : PolySet) (m : Transform) (c : Color) (lab : String) (p : Vec3),
      m.a12 = 0 → m.a13 = 0 → m.a21 = 0 → m.a23 = 0 → m.a31 = 0 → m.a32 = 0 →
      0 ≤ m.a11 → 0 ≤ m.a22 → 0 ≤ m.a33 →
      inBox ps.bbox p = true →
      inBox (mkPrim ps m c lab).bbox (m.apply p) = true) :=
  ⟨fun ps m c lab => ⟨rfl, inBox_box2_fst _ _, inBox_box2_snd _ _⟩,
   fun ps m c lab p h12 h13 h21 h23 h31 h32 h11 h22 h33 hp =>
     leafBBox_axis_conservative ps m h12 h13 h21 h23 h31 h32 h11 h22 h33 p hp⟩

/-- Witness for C9 (amended) at an axis-aligned transform. -/
theorem c9_leaf_bbox_witness :
    inBox (mkPrim psW mAxis colW "W").bbox (mAxis.apply ⟨1, 1, 1⟩) = true :=
  c9_leaf_bbox_amended.2 psW mAxis colW "W" ⟨1, 1, 1⟩ rfl rfl rfl rfl rfl rfl
    (by decide) (by decide) (by decide) (by decide)

/-- C10: at construction a Difference node's cached box equals its left
child's box alone (the right child's box is ignored), while Union takes
min-of-mins/max-of-maxes and (non-pruned) Intersection takes
max-of-mins/min-of-maxes of the two children's boxes. -/
theorem c10_op_bbox (l r : CSGTerm) :
    (vecLE l.bbox.lo l.bbox.hi → (mkOp .diff l r).bbox = l.bbox) ∧
    (∀ r' : CSGTerm, (mkOp .diff l r).bbox = (mkOp .diff l r').bbox) ∧
    (vecLE l.bbox.lo l.bbox.hi → vecLE r.bbox.lo r.bbox.hi →
      (mkOp .union l r).bbox =
        ⟨cwMin l.bbox.lo r.bbox.lo, cwMax l.bbox.hi r.bbox.hi⟩) ∧
    ((Box.mk (cwMax l.bbox.lo r.bbox.lo) (cwMin l.bbox.hi r.bbox.hi)).isNull = false →
      (mkOp .inter l r).bbox =
        ⟨cwMax l.bbox.lo r.bbox.lo, cwMin l.bbox.hi r.bbox.hi⟩) := by
  refine ⟨?_, fun r' => rfl, ?_, ?_⟩
  · intro hl
    show box2 (idT.apply l.bbox.lo) (idT.apply l.bbox.hi) = l.bbox
    rw [idT_apply, idT_apply, box2_of_le _ _ hl]
  · intro hl hr
    show box2 (idT.apply (cwMin l.bbox.lo r.bbox.lo))
      (idT.apply (cwMax l.bbox.hi r.bbox.hi)) = _
    rw [idT_apply, idT_apply]
    apply box2_of_le
    obtain ⟨a1, a2, a3⟩ := hl
    obtain ⟨b1, b2, b3⟩ := hr
    refine ⟨?_, ?_, ?_⟩ <;> (simp [cwMin, cwMax]; omega)
  · intro hnn
    show box2 (idT.apply (cwMax l.bbox.lo r.bbox.lo))
      (idT.apply (cwMin l.bbox.hi r.bbox.hi)) = _
    rw [idT_apply, idT_apply]
    apply box2_of_le
    have h2 : ¬(Box.mk (cwMax l.bbox.lo r.bbox.lo)
        (cwMin l.bbox.hi r.bbox.hi)).isNull = true := by simp [hnn]
    rw [isNull_iff] at h2
    push_neg at h2
    refine ⟨?_, ?_, ?_⟩ <;> (simp [cwMin, cwMax] at h2 ⊢; omega)

/-- Witness for C10 at two overlapping solids. -/
theorem c10_op_bbox_witness :
    (mkOp .diff (leafW "A") (leafW "B")).bbox = (leafW "A").bbox ∧
    (mkOp .union (leafW "A") (leafW "B")).bbox =
      ⟨cwMin (leafW "A").bbox.lo (leafW "B").bbox.lo,
        cwMax (leafW "A").bbox.hi (leafW "B").bbox.hi⟩ ∧
    (mkOp .inter (leafW "A") (leafW "B")).bbox =
      ⟨cwMax (leafW "A").bbox.lo (leafW "B").bbox.lo,
        cwMin (leafW "A").bbox.hi (leafW "B").bbox.hi⟩ :=
  ⟨(c10_op_bbox (leafW "A") (leafW "B")).1 ⟨by decide, by decide, by decide⟩,
   (c10_op_bbox (leafW "A") (leafW "B")).2.2.1 ⟨by decide, by decide, by decide⟩
     ⟨by decide, by decide, by decide⟩,
   (c10_op_bbox (leafW "A") (leafW "B")).2.2.2 (by decide)⟩
